import Mathlib

/-!
# Verification of the arena-backed B+ tree index (`src/btree.rs`)

Shallow embedding of the `BTree<K, V, ORDER>` structure and its operations,
specialised to integer keys and values (the source is generic over
`K : Ord + Copy`, `V : Clone`; Rust's `Ord` on integers is the standard
total order).

Modelling conventions:
* The source stores each node's keys and values in fixed arrays of
  `MAX_ORDER` `MaybeUninit` slots with a separate `key_count`; only
  positions `[0, key_count)` are ever read.  We model the live run as a
  `List Int` (so `key_count` is the list's length) and keep the
  out-of-bounds write that occurs when the run would grow past
  `MAX_ORDER` as an explicit `panic` outcome.
* Statically-checked array indexing that can fail at runtime in Rust
  (out-of-bounds panic, `Option::unwrap` on `None`) is modelled by a
  `panic` outcome; mutating operations return the mutated state
  explicitly, and an `err` outcome carries the state as it is when the
  error is returned.
* The recursive descent functions take a fuel parameter: the Rust code
  recurses through child slot identifiers, which terminates only because
  reachable arenas are acyclic.  Fuel exhaustion maps to `panic`
  (insert) or to the function's "absent" result (get/remove), and is
  unreachable from reachable states, where the tree is a single leaf.
-/

namespace Sakurai

def MAX_ORDER : Nat := 128

inductive BTreeError where
  | Full : BTreeError
  | NotFound : BTreeError
  | InvalidOperation : BTreeError
deriving Repr, DecidableEq

structure Node where
  keys : List Int
  values : List Int
  children : List (Option Nat)
  next_leaf : Option Nat
  is_leaf : Bool
deriving Repr, DecidableEq

/-- `key_count` is stored explicitly in the source; in the model it is the
length of the live key run. -/
def Node.key_count (n : Node) : Nat := n.keys.length

/-- The state `allocate_node` writes into a freshly handed-out slot:
an empty leaf (`key_count = 0`, no children, no next-leaf link). -/
def Node.empty : Node :=
  { keys := []
    values := []
    children := List.replicate (MAX_ORDER + 1) none
    next_leaf := none
    is_leaf := true }

structure BTree where
  root : Option Nat
  nodes : List Node
  free_list : List Bool
  next_free : Nat
  len : Nat
deriving Repr, DecidableEq

/-- Outcome of a mutating operation: Rust's `Result` plus the panic paths
(out-of-bounds indexing, `unwrap` of `None`).  `err` and `ok` carry the
state of the tree when the operation returns. -/
inductive Res (α : Type) where
  | panic : Res α
  | err : BTreeError → BTree → Res α
  | ok : α → BTree → Res α
deriving Repr, DecidableEq

namespace BTree

/-- `BTree::new`: no validity check of `ORDER` is performed; the node
array is uninitialised (junk defaults in the model). -/
def new (ORDER : Nat) : BTree :=
  { root := none
    nodes := List.replicate ORDER Node.empty
    free_list := List.replicate ORDER true
    next_free := 0
    len := 0 }

def getNode (t : BTree) (i : Nat) : Node := t.nodes.getD i Node.empty

def setNode (t : BTree) (i : Nat) (n : Node) : BTree :=
  { t with nodes := t.nodes.set i n }

def length (t : BTree) : Nat := t.len

def is_empty (t : BTree) : Bool := t.len == 0

/-- `capacity`: `ORDER * ORDER * ORDER * ORDER // approx` in the source. -/
def capacity (ORDER : Nat) : Nat := ORDER * ORDER * ORDER * ORDER

/-- Result of the free-slot probe loop in `allocate_node`. -/
inductive AllocProbe where
  | panic : AllocProbe
  | notFound : AllocProbe
  | found : Nat → AllocProbe
deriving Repr, DecidableEq

/-- The probe loop of `allocate_node`: `for i in 0..64` (the loop
counter values are passed as the list `List.range 64`), probing
`free_list[(next_free + i) % 64]` — the bound 64 is hard-coded in the
source, independent of `ORDER`, and the read is out of range when the
probed index reaches `free_list.length`.  The source updates the
candidate with mask arithmetic
`index = (current & (is_free-1)) | (index & ((!is_free)-1))` over
`usize`; for `is_free = 1` the first mask is all zeros and the second is
all ones, so the selected value is the PREVIOUS `index`, and for
`is_free = 0` it is `current` — the loop then breaks as soon as a free
slot is seen, returning that previous accumulator value. -/
def allocLoop (fl : List Bool) (nf : Nat) : Nat → List Nat → AllocProbe
  | _, [] => .notFound
  | index, i :: rest =>
    let current := (nf + i) % 64
    match fl.get? current with
    | none => .panic
    | some is_free =>
      let index2 := if is_free then index else current
      if is_free then .found index2
      else allocLoop fl nf index2 rest

/-- `allocate_node`: probe for a free slot, mark it occupied, advance the
cursor modulo the hard-coded 64, and initialise the slot to an empty
leaf.  `free_list[index] = false` and the node write are both
bounds-checked array accesses in Rust. -/
def allocate_node (t : BTree) : Res Nat :=
  match allocLoop t.free_list t.next_free t.next_free (List.range 64) with
  | .panic => .panic
  | .notFound => .err .Full t
  | .found index =>
    if index < t.free_list.length then
      let t1 : BTree :=
        { t with free_list := t.free_list.set index false
                 next_free := (index + 1) % 64 }
      if index < t1.nodes.length then
        .ok index (t1.setNode index Node.empty)
      else .panic
    else .panic

/-- `deallocate_node`: guarded by the hard-coded `index < 64`; drops the
slot's live contents (a no-op on plain data) and marks the slot free.
(For `ORDER ≤ index < 64` the Rust marker write would be out of bounds;
that state is unreachable and the model leaves the list unchanged.) -/
def deallocate_node (t : BTree) (index : Nat) : BTree :=
  if index < 64 then { t with free_list := t.free_list.set index true } else t

end BTree

/-- Rust's `key.cmp(node_key) as i8`: `-1`, `0` or `1`. -/
def cmp3 (a b : Int) : Int :=
  if a < b then -1 else if b < a then 1 else 0

/-- The branch-free narrowing of the search interval in `search_node`'s
loop: `is_less`/`is_greater` are the comparison's sign bits and the new
bounds are arithmetic selections
(`right = mid*is_less + right*(1-is_less)`;
`left = (mid+1)*is_greater + left*(1-is_greater)`). -/
def selectBounds (left right mid : Nat) (cmp : Int) : Nat × Nat :=
  let is_less : Nat := if cmp < 0 then 1 else 0
  let is_greater : Nat := if cmp > 0 then 1 else 0
  ((mid + 1) * is_greater + left * (1 - is_greater),
   mid * is_less + right * (1 - is_less))

/-- The comparison loop of `search_node`.  Each iteration takes the
midpoint, returns `(true, mid)` early on an exact match, and otherwise
narrows `left`/`right` with the branch-free selection `selectBounds`.
The interval shrinks strictly on every iteration, so the Rust `while`
loop terminates; the model carries the explicit iteration budget `fuel`
(any value above the initial interval length, see
`searchLoop_correct`), and the budget-exhausted branch is never
reached. -/
def searchLoop (keys : List Int) (key : Int) : Nat → Nat → Nat → Bool × Nat
  | left, _, 0 => (false, left)
  | left, right, fuel + 1 =>
    if left < right then
      let mid := (left + right) / 2
      let node_key := keys.getD mid 0
      let cmp := cmp3 key node_key
      if cmp = 0 then (true, mid)
      else
        let lr := selectBounds left right mid cmp
        searchLoop keys key lr.1 lr.2 fuel
    else (false, left)

/-- The sequence of three-way comparison outcomes observed by the
comparison loop of `search_node`, one entry per executed iteration: the
loop's control-flow trace. -/
def searchLoopSteps (keys : List Int) (key : Int) : Nat → Nat → Nat → List Int
  | _, _, 0 => []
  | left, right, fuel + 1 =>
    if left < right then
      let mid := (left + right) / 2
      let cmp := cmp3 key (keys.getD mid 0)
      if cmp = 0 then [cmp]
      else
        let lr := selectBounds left right mid cmp
        cmp :: searchLoopSteps keys key lr.1 lr.2 fuel
    else []

/-- `search_node`: binary search over the node's live key run; on normal
loop exit, a final equality probe at `left` (guarded by
`left < key_count`) decides `found`. -/
def search_node (node : Node) (key : Int) : Bool × Nat :=
  let r := searchLoop node.keys key 0 node.keys.length (node.keys.length + 1)
  if r.1 then r
  else
    let left := r.2
    let found :=
      if left < node.key_count then key = node.keys.getD left 0 else False
    (decide found, left)

/-- The right-shift insertion of `insert_recursive`'s leaf path: entries
at `pos..key_count` move one slot right (highest first) and the new
entry is written at `pos`. -/
def insertAt (pos : Nat) (x : Int) (l : List Int) : List Int :=
  l.take pos ++ x :: l.drop pos

/-- The left-shift removal of `remove_recursive`'s leaf path: entries at
`pos+1..key_count` move one slot left and the count is decremented. -/
def eraseAt (pos : Nat) (l : List Int) : List Int :=
  l.take pos ++ l.drop (pos + 1)

namespace BTree

def insert_recursive (ORDER : Nat) :
    Nat → BTree → Nat → Int → Int → Res (Option Int)
  | 0, _, _, _, _ => .panic
  | fuel + 1, t, node_index, key, value =>
    let node := t.getNode node_index
    let fp := search_node node key
    let found := fp.1
    let pos := fp.2
    if node.is_leaf then
      if found then
        let old_value := node.values.getD pos 0
        .ok (some old_value)
          (t.setNode node_index { node with values := node.values.set pos value })
      else if ORDER ≤ node.key_count then
        .err .Full t
      else if MAX_ORDER ≤ node.key_count then
        .panic
      else
        .ok none
          { t.setNode node_index
              { node with
                  keys := insertAt pos key node.keys
                  values := insertAt pos value node.values } with
            len := t.len + 1 }
    else
      match node.children.getD (pos + (if found then 1 else 0)) none with
      | none => .panic
      | some child_index => insert_recursive ORDER fuel t child_index key value

/-- `insert`: on an empty index, allocate a root leaf and store the single
pair; otherwise descend from the root. -/
def insert (ORDER : Nat) (t : BTree) (key value : Int) : Res (Option Int) :=
  match t.root with
  | none =>
    match t.allocate_node with
    | .panic => .panic
    | .err e t' => .err e t'
    | .ok root_index t1 =>
      let t2 := { t1 with root := some root_index }
      let node := t2.getNode root_index
      let node' := { node with keys := [key], values := [value] }
      .ok none { t2.setNode root_index node' with len := t2.len + 1 }
  | some root_index =>
    insert_recursive ORDER (t.nodes.length + 1) t root_index key value

def get_recursive (t : BTree) : Nat → Nat → Int → Option Int
  | 0, _, _ => none
  | fuel + 1, node_index, key =>
    let node := t.getNode node_index
    let fp := search_node node key
    let found := fp.1
    let pos := fp.2
    if node.is_leaf then
      if found then some (node.values.getD pos 0) else none
    else
      match node.children.getD (pos + (if found then 1 else 0)) none with
      | none => none
      | some child_index => get_recursive t fuel child_index key

def get (t : BTree) (key : Int) : Option Int :=
  match t.root with
  | none => none
  | some root_index => get_recursive t (t.nodes.length + 1) root_index key

def contains_key (t : BTree) (key : Int) : Bool :=
  (t.get key).isSome

def remove_recursive (t : BTree) : Nat → Nat → Int → Option Int × BTree
  | 0, _, _ => (none, t)
  | fuel + 1, node_index, key =>
    let node := t.getNode node_index
    let fp := search_node node key
    let found := fp.1
    let pos := fp.2
    if node.is_leaf then
      if !found then (none, t)
      else
        let removed_value := node.values.getD pos 0
        (some removed_value,
          t.setNode node_index
            { node with
                keys := eraseAt pos node.keys
                values := eraseAt pos node.values })
    else
      match node.children.getD (pos + (if found then 1 else 0)) none with
      | none => (none, t)
      | some child_index => remove_recursive t fuel child_index key

/-- `remove`: descend, then `len = len.saturating_sub(result.is_some())`
(Nat subtraction is saturating). -/
def remove (t : BTree) (key : Int) : Option Int × BTree :=
  match t.root with
  | none => (none, t)
  | some root_index =>
    let r := remove_recursive t (t.nodes.length + 1) root_index key
    (r.1, { r.2 with len := r.2.len - (if r.1.isSome then 1 else 0) })

def find_leftmost_leaf_aux (t : BTree) : Nat → Nat → Option Nat
  | 0, _ => none
  | fuel + 1, current =>
    let node := t.getNode current
    if node.is_leaf then some current
    else
      match node.children.getD 0 none with
      | none => none
      | some c => find_leftmost_leaf_aux t fuel c

def find_leftmost_leaf (t : BTree) : Option Nat :=
  match t.root with
  | none => none
  | some r => find_leftmost_leaf_aux t (t.nodes.length + 1) r

/-- One step of `BTreeIter::next`: yields the pair at the current
position, or follows the `next_leaf` link — and stops permanently if the
next leaf has a zero key count. -/
def iterNext (t : BTree) (node_index : Nat) (pos : Nat) :
    Option ((Int × Int) × Nat × Nat) :=
  let node := t.getNode node_index
  if node.key_count ≤ pos then
    match node.next_leaf with
    | none => none
    | some next_index =>
      let next_node := t.getNode next_index
      if next_node.key_count = 0 then none
      else some ((next_node.keys.getD 0 0, next_node.values.getD 0 0), next_index, 1)
  else
    some ((node.keys.getD pos 0, node.values.getD pos 0), node_index, pos + 1)

def iterAux (t : BTree) : Nat → Nat → Nat → List (Int × Int)
  | 0, _, _ => []
  | fuel + 1, node_index, pos =>
    match iterNext t node_index pos with
    | none => []
    | some (pair, ni, p) => pair :: iterAux t fuel ni p

/-- The full sequence of pairs yielded by `iter()`'s iterator.  The fuel
`t.len + 1` covers every yield of a well-formed tree plus the final
stopping step. -/
def iterList (t : BTree) : List (Int × Int) :=
  match t.find_leftmost_leaf with
  | none => []
  | some leftmost => iterAux t (t.len + 1) leftmost 0

mutual

def clear_recursive : Nat → BTree → Nat → BTree
  | 0, t, _ => t
  | fuel + 1, t, node_index =>
    let node := t.getNode node_index
    let t1 :=
      if node.is_leaf then t
      else clear_children fuel t (node.children.take (node.key_count + 1))
    t1.deallocate_node node_index
termination_by fuel _ _ => (fuel, 0)

def clear_children : Nat → BTree → List (Option Nat) → BTree
  | _, t, [] => t
  | fuel, t, c :: rest =>
    clear_children fuel
      (match c with
       | none => t
       | some child => clear_recursive fuel t child) rest
termination_by fuel _ l => (fuel, l.length + 1)

end

/-- `clear`: recursively deallocate from the root (children first), then
reset root, length, the free list and the cursor.  A tree with no root
is left untouched. -/
def clear (ORDER : Nat) (t : BTree) : BTree :=
  match t.root with
  | none => t
  | some root =>
    let t1 := clear_recursive (t.nodes.length + 1) t root
    { t1 with
        root := none
        len := 0
        free_list := List.replicate ORDER true
        next_free := 0 }

end BTree

/-! ## The rank of a key in a sorted run -/

/-- The number of keys of the run smaller than `key`.  For a strictly
ascending run this is both the position of `key` when it is present and
the insertion point when it is absent. -/
def rank (l : List Int) (key : Int) : Nat :=
  l.countP (fun x => decide (x < key))

theorem rank_le_length (l : List Int) (key : Int) : rank l key ≤ l.length :=
  List.countP_le_length _

theorem lt_rank_iff {l : List Int} (hs : List.Sorted (· < ·) l) (key : Int) :
    ∀ i, i < l.length → (i < rank l key ↔ l.getD i 0 < key) := by
  induction l with
  | nil => intro i hi; simp at hi
  | cons a l ih =>
    rw [List.sorted_cons] at hs
    obtain ⟨ha, hs'⟩ := hs
    intro i hi
    have hcount : rank (a :: l) key
        = rank l key + if a < key then 1 else 0 := by
      simp [rank, List.countP_cons]
    rcases Nat.eq_zero_or_pos i with rfl | hpos
    · simp only [List.getD_cons_zero, hcount]
      by_cases hak : a < key
      · simp [hak]
      · have hz : rank l key = 0 := by
          apply List.countP_eq_zero.mpr
          intro b hb
          simp only [decide_eq_true_eq]
          have := ha b hb
          omega
        simp [hak, hz]
    · obtain ⟨j, rfl⟩ := Nat.exists_eq_add_of_le hpos
      simp only [List.length_cons] at hi
      have hj : j < l.length := by omega
      simp only [Nat.add_comm 1 j, List.getD_cons_succ, hcount]
      by_cases hak : a < key
      · simp only [hak, if_true]
        rw [← ih hs' j hj]
        omega
      · have hz : rank l key = 0 := by
          apply List.countP_eq_zero.mpr
          intro b hb
          simp only [decide_eq_true_eq]
          have := ha b hb
          omega
        have hmem : l.getD j 0 ∈ l := by
          rw [List.getD_eq_getElem l 0 hj]
          exact List.getElem_mem hj
        have hag := ha _ hmem
        simp only [hak, if_false, hz]
        constructor <;> intro h' <;> omega

theorem sorted_getD_lt {l : List Int} (hs : List.Sorted (· < ·) l)
    {i j : Nat} (hij : i < j) (hj : j < l.length) :
    l.getD i 0 < l.getD j 0 := by
  have hi : i < l.length := lt_trans hij hj
  rw [List.getD_eq_getElem l 0 hi, List.getD_eq_getElem l 0 hj]
  exact List.pairwise_iff_getElem.mp hs i j hi hj hij

theorem rank_eq_of_getD {l : List Int} (hs : List.Sorted (· < ·) l) {key : Int}
    {j : Nat} (hj : j < l.length) (h : l.getD j 0 = key) : rank l key = j := by
  have h1 : rank l key ≤ j := by
    by_contra hc
    have := (lt_rank_iff hs key j hj).mp (by omega)
    omega
  by_contra hc
  have hrj : rank l key < j := by omega
  have hr : rank l key < l.length := lt_trans hrj hj
  have hlt : l.getD (rank l key) 0 < key := by
    have := sorted_getD_lt hs hrj hj
    rwa [h] at this
  have := (lt_rank_iff hs key (rank l key) hr).mpr hlt
  omega

theorem rank_of_mem {l : List Int} (hs : List.Sorted (· < ·) l) {key : Int}
    (h : key ∈ l) :
    rank l key < l.length ∧ l.getD (rank l key) 0 = key := by
  obtain ⟨j, hj, hget⟩ := List.getElem_of_mem h
  have hgd : l.getD j 0 = key := by rw [List.getD_eq_getElem l 0 hj]; exact hget
  have := rank_eq_of_getD hs hj hgd
  exact ⟨this ▸ hj, this ▸ hgd⟩

theorem lt_getD_rank_of_not_mem {l : List Int} (hs : List.Sorted (· < ·) l)
    {key : Int} (h : key ∉ l) (hr : rank l key < l.length) :
    key < l.getD (rank l key) 0 := by
  have h1 : ¬ l.getD (rank l key) 0 < key := by
    intro hc
    have := (lt_rank_iff hs key (rank l key) hr).mpr hc
    omega
  have h2 : l.getD (rank l key) 0 ≠ key := by
    intro hc
    apply h
    rw [← hc, List.getD_eq_getElem l 0 hr]
    exact List.getElem_mem hr
  omega

end Sakurai

namespace Sakurai

theorem cmp3_lt {a b : Int} (h : a < b) : cmp3 a b = -1 := by
  simp only [cmp3]
  rw [if_pos h]

theorem cmp3_gt {a b : Int} (h : b < a) : cmp3 a b = 1 := by
  simp only [cmp3]
  rw [if_neg (by omega), if_pos h]

theorem cmp3_eq {a b : Int} (h : a = b) : cmp3 a b = 0 := by
  simp only [cmp3]
  rw [if_neg (by omega), if_neg (by omega)]

theorem searchLoop_correct {keys : List Int} {key : Int}
    (hs : List.Sorted (· < ·) keys) :
    ∀ fuel left right, right - left < fuel → left ≤ right → right ≤ keys.length →
      (∀ i, i < left → keys.getD i 0 < key) →
      (∀ i, right ≤ i → i < keys.length → key < keys.getD i 0) →
      searchLoop keys key left right fuel
        = (decide (key ∈ keys), rank keys key) := by
  intro fuel
  induction fuel with
  | zero => intro left right hn _ _ _ _; omega
  | succ fuel IH =>
    intro left right hn h1 h2 h3 h4
    rw [searchLoop]
    by_cases hlr : left < right
    · simp only [hlr, if_pos]
      set mid := (left + right) / 2 with hmid
      have hmlt : mid < right := by omega
      have hmge : left ≤ mid := by omega
      have hmlen : mid < keys.length := by omega
      rcases lt_trichotomy key (keys.getD mid 0) with hclt | hceq | hcgt
      · rw [cmp3_lt hclt]
        simp only [show (-1 : Int) ≠ 0 by norm_num, if_false]
        have hsel : selectBounds left right mid (-1) = (left, mid) := by
          simp [selectBounds]
        rw [hsel]
        apply IH left mid (by omega) (by omega) (by omega) h3
        intro i hi hilen
        rcases eq_or_lt_of_le hi with rfl | hgt
        · exact hclt
        · exact lt_trans hclt (sorted_getD_lt hs hgt hilen)
      · rw [cmp3_eq hceq]
        simp only [if_pos rfl]
        have hmem : key ∈ keys := by
          rw [hceq, List.getD_eq_getElem keys 0 hmlen]
          exact List.getElem_mem hmlen
        have hrk : rank keys key = mid := rank_eq_of_getD hs hmlen hceq.symm
        simp [hmem, hrk]
      · rw [cmp3_gt hcgt]
        simp only [show (1 : Int) ≠ 0 by norm_num, if_false]
        have hsel : selectBounds left right mid 1 = (mid + 1, right) := by
          simp [selectBounds]
        rw [hsel]
        apply IH (mid + 1) right (by omega) (by omega) h2 _ h4
        intro i hi
        have hilen : i < keys.length := by omega
        rcases Nat.lt_succ_iff_lt_or_eq.mp hi with hlt | rfl
        · exact lt_trans (sorted_getD_lt hs hlt hmlen) hcgt
        · exact hcgt
    · simp only [hlr, if_false]
      have hnm : key ∉ keys := by
        intro hmem
        obtain ⟨hrlen, hrget⟩ := rank_of_mem hs hmem
        by_cases hrl : rank keys key < left
        · have := h3 _ hrl
          omega
        · have := h4 _ (by omega) hrlen
          omega
      have hrk : rank keys key = left := by
        have hub : rank keys key ≤ left := by
          by_contra hc
          push_neg at hc
          have hrlen : rank keys key ≤ keys.length := rank_le_length keys key
          have hllen : left < keys.length := by omega
          have := (lt_rank_iff hs key left hllen).mp hc
          have := h4 left (by omega) hllen
          omega
        by_contra hc
        have hrl : rank keys key < left := by omega
        have hlt := h3 _ hrl
        have hrlen : rank keys key < keys.length := by omega
        have := (lt_rank_iff hs key (rank keys key) hrlen).mpr hlt
        omega
      simp [hnm, hrk]

theorem search_node_correct (node : Node) (key : Int)
    (hs : List.Sorted (· < ·) node.keys) :
    search_node node key = (decide (key ∈ node.keys), rank node.keys key) := by
  have hloop : searchLoop node.keys key 0 node.keys.length (node.keys.length + 1)
      = (decide (key ∈ node.keys), rank node.keys key) := by
    apply searchLoop_correct hs (node.keys.length + 1) 0 node.keys.length
    · omega
    · omega
    · omega
    · intro i hi; omega
    · intro i hi hilen; omega
  by_cases hm : key ∈ node.keys
  · simp [search_node, hloop, hm]
  · by_cases hr : rank node.keys key < node.keys.length
    · have hgt := lt_getD_rank_of_not_mem hs hm hr
      rw [List.getD_eq_getElem node.keys 0 hr] at hgt
      simp [search_node, hloop, hm, Node.key_count, hr]
      omega
    · simp [search_node, hloop, hm, Node.key_count, hr]

end Sakurai

namespace Sakurai

/-! ## Auxiliary list facts -/

theorem getD_set_self {α : Type} {l : List α} {i : Nat} (h : i < l.length)
    (a d : α) : (l.set i a).getD i d = a := by
  rw [List.getD_eq_getElem?_getD, List.getElem?_set_eq_of_lt a h]
  rfl

theorem set_of_getElem_eq {α : Type} {l : List α} {i : Nat} {a : α}
    (h : l[i]? = some a) : l.set i a = l := by
  apply List.ext_getElem?
  intro j
  rcases eq_or_ne i j with rfl | hne
  · have hi : i < l.length := by
      by_contra hc
      rw [List.getElem?_eq_none (by omega)] at h
      cases h
    rw [List.getElem?_set_eq_of_lt a hi, h]
  · rw [List.getElem?_set_ne hne]

theorem getD_map_fst {l : List (Int × Int)} {j : Nat} (hj : j < l.length) :
    (l.map Prod.fst).getD j 0 = (l.getD j (0, 0)).1 := by
  have hj' : j < (l.map Prod.fst).length := by simpa using hj
  rw [List.getD_eq_getElem _ 0 hj', List.getD_eq_getElem _ (0, 0) hj]
  simp

theorem getD_map_snd {l : List (Int × Int)} {j : Nat} (hj : j < l.length) :
    (l.map Prod.snd).getD j 0 = (l.getD j (0, 0)).2 := by
  have hj' : j < (l.map Prod.snd).length := by simpa using hj
  rw [List.getD_eq_getElem _ 0 hj', List.getD_eq_getElem _ (0, 0) hj]
  simp

/-! ## The shapes reachable states can take -/

/-- An index with no root: fresh from `new`, or after `clear`. -/
structure EmptyState (ORDER : Nat) (t : BTree) : Prop where
  root_eq : t.root = none
  len_eq : t.len = 0
  nodes_len : t.nodes.length = ORDER
  free_eq : t.free_list = List.replicate ORDER true
  next_eq : t.next_free = 0

/-- An index whose root is the single leaf in slot 0 holding the sorted
association list `l`.  Since insertion never splits, every non-empty
reachable state has this shape. -/
structure LeafState (ORDER : Nat) (t : BTree) (l : List (Int × Int)) : Prop where
  order_pos : 0 < ORDER
  root_eq : t.root = some 0
  len_eq : t.len = l.length
  nodes_len : t.nodes.length = ORDER
  free_eq : t.free_list = (List.replicate ORDER true).set 0 false
  next_eq : t.next_free = 1
  keys_eq : (t.getNode 0).keys = l.map Prod.fst
  values_eq : (t.getNode 0).values = l.map Prod.snd
  leaf_eq : (t.getNode 0).is_leaf = true
  next_leaf_eq : (t.getNode 0).next_leaf = none
  sorted : List.Sorted (· < ·) (l.map Prod.fst)

theorem emptyState_new (ORDER : Nat) : EmptyState ORDER (BTree.new ORDER) := by
  constructor <;> simp [BTree.new]

/-- On an arena whose slot 0 is free and whose cursor is 0, the probe
loop finds slot 0 immediately. -/
theorem allocLoop_fresh {fl : List Bool} (h0 : fl[0]? = some true) :
    BTree.allocLoop fl 0 0 (List.range 64) = .found 0 := by
  rw [show (64 : Nat) = 63 + 1 from rfl, List.range_succ_eq_map, BTree.allocLoop]
  simp only [List.get?_eq_getElem?, Nat.add_zero, Nat.zero_mod, h0]
  norm_num

theorem allocate_fresh {ORDER : Nat} {t : BTree} (h : EmptyState ORDER t)
    (hpos : 0 < ORDER) :
    t.allocate_node = .ok 0
      { t with free_list := t.free_list.set 0 false
               next_free := 1
               nodes := t.nodes.set 0 Node.empty } := by
  have h0 : t.free_list[0]? = some true := by
    rw [h.free_eq, List.getElem?_replicate]
    simp [hpos]
  have hloop : BTree.allocLoop t.free_list t.next_free t.next_free (List.range 64)
      = .found 0 := by
    rw [h.next_eq]
    exact allocLoop_fresh h0
  have hlen : 0 < t.free_list.length := by
    rw [h.free_eq]; simpa using hpos
  have hnlen : 0 < t.nodes.length := by rw [h.nodes_len]; exact hpos
  simp [BTree.allocate_node, hloop, hlen, hnlen, BTree.setNode]

theorem insert_empty {ORDER : Nat} {t : BTree} (h : EmptyState ORDER t)
    (hpos : 0 < ORDER) (k v : Int) :
    ∃ t', BTree.insert ORDER t k v = .ok none t' ∧ LeafState ORDER t' [(k, v)] := by
  have halloc := allocate_fresh h hpos
  have hnlen : 0 < t.nodes.length := by rw [h.nodes_len]; exact hpos
  refine ⟨{ root := some 0
            nodes := (t.nodes.set 0 Node.empty).set 0
              { Node.empty with keys := [k], values := [v] }
            free_list := t.free_list.set 0 false
            next_free := 1
            len := t.len + 1 }, ?_, ?_⟩
  · simp only [BTree.insert, h.root_eq, halloc]
    simp [BTree.getNode, BTree.setNode, List.getElem?_set_eq_of_lt, hnlen]
  · constructor
    · exact hpos
    · rfl
    · simp [h.len_eq]
    · simp [h.nodes_len]
    · simp [h.free_eq]
    · rfl
    · simp [BTree.getNode, List.getElem?_set_eq_of_lt, hnlen]
    · simp [BTree.getNode, List.getElem?_set_eq_of_lt, hnlen]
    · simp [BTree.getNode, List.getElem?_set_eq_of_lt, hnlen, Node.empty]
    · simp [BTree.getNode, List.getElem?_set_eq_of_lt, hnlen, Node.empty]
    · simp

end Sakurai

namespace Sakurai

/-! ## Abstract operations on the association list of a leaf -/

/-- Insertion of a pair at a position (the leaf's right-shift loop). -/
def insertAtP (pos : Nat) (x : Int × Int) (l : List (Int × Int)) : List (Int × Int) :=
  l.take pos ++ x :: l.drop pos

/-- Removal of the pair at a position (the leaf's left-shift loop). -/
def eraseAtP (pos : Nat) (l : List (Int × Int)) : List (Int × Int) :=
  l.take pos ++ l.drop (pos + 1)

theorem search_leaf {ORDER : Nat} {t : BTree} {l : List (Int × Int)}
    (h : LeafState ORDER t l) (k : Int) :
    search_node (t.getNode 0) k
      = (decide (k ∈ l.map Prod.fst), rank (l.map Prod.fst) k) := by
  have hs := search_node_correct (t.getNode 0) k (by rw [h.keys_eq]; exact h.sorted)
  rwa [h.keys_eq] at hs

theorem nodes_pos {ORDER : Nat} {t : BTree} {l : List (Int × Int)}
    (h : LeafState ORDER t l) : 0 < t.nodes.length := by
  rw [h.nodes_len]; exact h.order_pos

theorem getNode_setNode {t : BTree} {i : Nat} (h : i < t.nodes.length) (n : Node) :
    (t.setNode i n).getNode i = n := by
  simp only [BTree.getNode, BTree.setNode]
  exact getD_set_self (by simpa using h) n Node.empty

theorem insert_present {ORDER : Nat} {t : BTree} {l : List (Int × Int)}
    (h : LeafState ORDER t l) {k w : Int} (hmem : (k, w) ∈ l) (v : Int) :
    ∃ t', BTree.insert ORDER t k v = .ok (some w) t' ∧
      LeafState ORDER t' (l.set (rank (l.map Prod.fst) k) (k, v)) ∧
      t'.len = t.len ∧ (t'.getNode 0).key_count = (t.getNode 0).key_count := by
  obtain ⟨j, hj, hget⟩ := List.getElem_of_mem hmem
  have hjk : (l.map Prod.fst).getD j 0 = k := by
    rw [getD_map_fst hj, List.getD_eq_getElem l (0,0) hj, hget]
  have hrk : rank (l.map Prod.fst) k = j :=
    rank_eq_of_getD h.sorted (by simpa using hj) hjk
  have hkeys : k ∈ l.map Prod.fst := by
    exact List.mem_map_of_mem Prod.fst hmem
  have hw : (l.map Prod.snd).getD j 0 = w := by
    rw [getD_map_snd hj, List.getD_eq_getElem l (0,0) hj, hget]
  have hjsome : l[j]? = some (k, w) := by
    rw [List.getElem?_eq_getElem hj, hget]
  have hnp := nodes_pos h
  have hsearch := search_leaf h k
  rw [hrk] at hsearch
  refine ⟨t.setNode 0 { t.getNode 0 with
      values := (t.getNode 0).values.set j v }, ?_, ?_, ?_, ?_⟩
  · simp only [BTree.insert, h.root_eq, BTree.insert_recursive, hsearch,
      h.leaf_eq, if_true, hkeys, decide_eq_true_eq]
    simp [h.values_eq, hw, hkeys, hjsome]
  · have hksame : (l.map Prod.fst).set j k = l.map Prod.fst := by
      apply set_of_getElem_eq
      rw [List.getElem?_eq_getElem (by simpa using hj)]
      simp [hget]
    constructor
    · exact h.order_pos
    · simp [BTree.setNode, h.root_eq]
    · simp [BTree.setNode, h.len_eq]
    · simp [BTree.setNode, h.nodes_len]
    · simp [BTree.setNode, h.free_eq]
    · simp [BTree.setNode, h.next_eq]
    · rw [getNode_setNode hnp]
      simp only [List.map_set, hrk, hksame]
      exact h.keys_eq
    · rw [getNode_setNode hnp]
      simp only [List.map_set, hrk]
      rw [h.values_eq]
    · rw [getNode_setNode hnp]
      exact h.leaf_eq
    · rw [getNode_setNode hnp]
      exact h.next_leaf_eq
    · simp only [List.map_set, hrk, hksame]
      exact h.sorted
  · simp [BTree.setNode]
  · rw [getNode_setNode hnp]
    simp [Node.key_count]

end Sakurai

namespace Sakurai

theorem insert_full {ORDER : Nat} {t : BTree} {l : List (Int × Int)}
    (h : LeafState ORDER t l) {k : Int} (hnm : k ∉ l.map Prod.fst)
    (hfull : ORDER ≤ l.length) (v : Int) :
    BTree.insert ORDER t k v = .err .Full t := by
  have hsearch := search_leaf h k
  simp only [BTree.insert, h.root_eq, BTree.insert_recursive, hsearch, h.leaf_eq,
    if_true]
  have hkc : (t.getNode 0).key_count = l.length := by
    simp [Node.key_count, h.keys_eq]
  simp [hnm, hkc, hfull]

theorem mem_take_rank_lt {l : List Int} (hs : List.Sorted (· < ·) l) {k x : Int}
    (hx : x ∈ l.take (rank l k)) : x < k := by
  obtain ⟨i, hi, hget⟩ := List.mem_iff_getElem.mp hx
  have hi' : i < rank l k ∧ i < l.length := by
    simp only [List.length_take] at hi
    omega
  have : l[i] = x := by rw [← hget, List.getElem_take]
  have hgd : l.getD i 0 = x := by
    rw [List.getD_eq_getElem l 0 hi'.2, this]
  have := (lt_rank_iff hs k i hi'.2).mp hi'.1
  omega

theorem mem_drop_rank_gt {l : List Int} (hs : List.Sorted (· < ·) l) {k x : Int}
    (hk : k ∉ l) (hx : x ∈ l.drop (rank l k)) : k < x := by
  obtain ⟨i, hi, hget⟩ := List.mem_iff_getElem.mp hx
  have hlen : rank l k + i < l.length := by
    simp only [List.length_drop] at hi
    omega
  have hgx : l[rank l k + i] = x := by rw [← hget, List.getElem_drop]
  have hgd : l.getD (rank l k + i) 0 = x := by
    rw [List.getD_eq_getElem l 0 hlen, hgx]
  have hnlt : ¬ (rank l k + i < rank l k) := by omega
  have h1 : ¬ (x < k) := by
    intro hc
    exact hnlt ((lt_rank_iff hs k _ hlen).mpr (hgd ▸ hc))
  have h2 : x ≠ k := by
    intro hc
    apply hk
    rw [← hc]
    exact List.mem_of_mem_drop hx
  omega

end Sakurai

namespace Sakurai

theorem sorted_insertAt_rank {l : List Int} (hs : List.Sorted (· < ·) l)
    {k : Int} (hk : k ∉ l) :
    List.Sorted (· < ·) (insertAt (rank l k) k l) := by
  unfold insertAt
  rw [List.Sorted, List.pairwise_append]
  refine ⟨hs.sublist (List.take_sublist _ _), ?_, ?_⟩
  · rw [List.pairwise_cons]
    exact ⟨fun y hy => mem_drop_rank_gt hs hk hy,
      hs.sublist (List.drop_sublist _ _)⟩
  · intro x hx y hy
    have hxk : x < k := mem_take_rank_lt hs hx
    rcases List.mem_cons.mp hy with rfl | hy'
    · exact hxk
    · exact lt_trans hxk (mem_drop_rank_gt hs hk hy')

theorem insertAtP_perm (pos : Nat) (x : Int × Int) (l : List (Int × Int)) :
    (insertAtP pos x l).Perm (x :: l) := by
  unfold insertAtP
  have h1 : (l.take pos ++ x :: l.drop pos).Perm (x :: (l.take pos ++ l.drop pos)) :=
    List.perm_middle
  rwa [List.take_append_drop] at h1

theorem insertAtP_length {l : List (Int × Int)} {pos : Nat} (hpos : pos ≤ l.length)
    (x : Int × Int) : (insertAtP pos x l).length = l.length + 1 := by
  simp [insertAtP]
  omega

theorem map_fst_insertAtP (pos : Nat) (x : Int × Int) (l : List (Int × Int)) :
    (insertAtP pos x l).map Prod.fst = insertAt pos x.1 (l.map Prod.fst) := by
  simp [insertAtP, insertAt]

theorem map_snd_insertAtP (pos : Nat) (x : Int × Int) (l : List (Int × Int)) :
    (insertAtP pos x l).map Prod.snd = insertAt pos x.2 (l.map Prod.snd) := by
  simp [insertAtP, insertAt]

theorem getNode_setLen (u : BTree) (n i : Nat) :
    ({ u with len := n } : BTree).getNode i = u.getNode i := rfl

theorem insert_new {ORDER : Nat} {t : BTree} {l : List (Int × Int)}
    (h : LeafState ORDER t l) {k : Int} (hnm : k ∉ l.map Prod.fst)
    (hlen : l.length < ORDER) (hmax : l.length < MAX_ORDER) (v : Int) :
    ∃ t', BTree.insert ORDER t k v = .ok none t' ∧
      LeafState ORDER t' (insertAtP (rank (l.map Prod.fst) k) (k, v) l) := by
  have hsearch := search_leaf h k
  have hnp := nodes_pos h
  have hkc : (t.getNode 0).key_count = l.length := by
    simp [Node.key_count, h.keys_eq]
  have hrle : rank (l.map Prod.fst) k ≤ l.length := by
    have := rank_le_length (l.map Prod.fst) k
    simpa using this
  have hknotl : k ∉ l.map Prod.fst := hnm
  refine ⟨{ t.setNode 0 { t.getNode 0 with
      keys := insertAt (rank (l.map Prod.fst) k) k (t.getNode 0).keys
      values := insertAt (rank (l.map Prod.fst) k) v (t.getNode 0).values }
        with len := t.len + 1 }, ?_, ?_⟩
  · simp only [BTree.insert, h.root_eq, BTree.insert_recursive, hsearch, h.leaf_eq,
      if_true]
    simp [hnm, hkc, Nat.not_le.mpr hlen, Nat.not_le.mpr hmax]
  · constructor
    · exact h.order_pos
    · simp [BTree.setNode, h.root_eq]
    · simp [BTree.setNode, h.len_eq, insertAtP_length hrle]
    · simp [BTree.setNode, h.nodes_len]
    · simp [BTree.setNode, h.free_eq]
    · simp [BTree.setNode, h.next_eq]
    · rw [getNode_setLen, getNode_setNode hnp, map_fst_insertAtP]
      simp only [h.keys_eq]
    · rw [getNode_setLen, getNode_setNode hnp, map_snd_insertAtP]
      simp only [h.values_eq]
    · rw [getNode_setLen, getNode_setNode hnp]
      exact h.leaf_eq
    · rw [getNode_setLen, getNode_setNode hnp]
      exact h.next_leaf_eq
    · rw [map_fst_insertAtP]
      exact sorted_insertAt_rank h.sorted hnm

end Sakurai

namespace Sakurai

/-! ## Lookup on a leaf state -/

theorem get_empty {ORDER : Nat} {t : BTree} (h : EmptyState ORDER t) (k : Int) :
    t.get k = none := by
  simp [BTree.get, h.root_eq]

theorem get_present {ORDER : Nat} {t : BTree} {l : List (Int × Int)}
    (h : LeafState ORDER t l) {k w : Int} (hmem : (k, w) ∈ l) :
    t.get k = some w := by
  obtain ⟨j, hj, hget⟩ := List.getElem_of_mem hmem
  have hjk : (l.map Prod.fst).getD j 0 = k := by
    rw [getD_map_fst hj, List.getD_eq_getElem l (0,0) hj, hget]
  have hrk : rank (l.map Prod.fst) k = j :=
    rank_eq_of_getD h.sorted (by simpa using hj) hjk
  have hkeys : k ∈ l.map Prod.fst := List.mem_map_of_mem Prod.fst hmem
  have hjsome : l[j]? = some (k, w) := by
    rw [List.getElem?_eq_getElem hj, hget]
  have hsearch := search_leaf h k
  rw [hrk] at hsearch
  simp only [BTree.get, h.root_eq, BTree.get_recursive, hsearch, h.leaf_eq, if_true]
  simp [hkeys, h.values_eq, hjsome]

theorem get_absent {ORDER : Nat} {t : BTree} {l : List (Int × Int)}
    (h : LeafState ORDER t l) {k : Int} (hnm : k ∉ l.map Prod.fst) :
    t.get k = none := by
  have hsearch := search_leaf h k
  simp only [BTree.get, h.root_eq, BTree.get_recursive, hsearch, h.leaf_eq, if_true]
  simp [hnm]

theorem get_some_iff {ORDER : Nat} {t : BTree} {l : List (Int × Int)}
    (h : LeafState ORDER t l) (k w : Int) :
    t.get k = some w ↔ (k, w) ∈ l := by
  constructor
  · intro hg
    by_cases hkeys : k ∈ l.map Prod.fst
    · obtain ⟨p, hp, hpk⟩ := List.mem_map.mp hkeys
      obtain ⟨a, b⟩ := p
      simp only at hpk
      subst hpk
      have hgp := get_present h hp
      rw [hg] at hgp
      injection hgp with hww
      subst hww
      exact hp
    · rw [get_absent h hkeys] at hg
      cases hg
  · exact get_present h

end Sakurai

namespace Sakurai

/-! ## Removal on a leaf state -/

theorem map_fst_eraseAtP (pos : Nat) (l : List (Int × Int)) :
    (eraseAtP pos l).map Prod.fst = eraseAt pos (l.map Prod.fst) := by
  simp [eraseAtP, eraseAt]

theorem map_snd_eraseAtP (pos : Nat) (l : List (Int × Int)) :
    (eraseAtP pos l).map Prod.snd = eraseAt pos (l.map Prod.snd) := by
  simp [eraseAtP, eraseAt]

theorem eraseAtP_length {l : List (Int × Int)} {pos : Nat} (hpos : pos < l.length) :
    (eraseAtP pos l).length = l.length - 1 := by
  simp [eraseAtP]
  omega

theorem sorted_eraseAt {l : List Int} (hs : List.Sorted (· < ·) l) (pos : Nat) :
    List.Sorted (· < ·) (eraseAt pos l) := by
  have : eraseAt pos l = l.eraseIdx pos := by
    rw [List.eraseIdx_eq_take_drop_succ]
    rfl
  rw [this]
  exact hs.sublist (List.eraseIdx_sublist l pos)

theorem remove_empty {ORDER : Nat} {t : BTree} (h : EmptyState ORDER t) (k : Int) :
    t.remove k = (none, t) := by
  simp [BTree.remove, h.root_eq]

theorem tree_eta (t : BTree) : ({ t with len := t.len } : BTree) = t := rfl

theorem remove_absent {ORDER : Nat} {t : BTree} {l : List (Int × Int)}
    (h : LeafState ORDER t l) {k : Int} (hnm : k ∉ l.map Prod.fst) :
    t.remove k = (none, t) := by
  have hsearch := search_leaf h k
  simp only [BTree.remove, h.root_eq, BTree.remove_recursive, hsearch, h.leaf_eq,
    if_true]
  simp [hnm]

theorem remove_present {ORDER : Nat} {t : BTree} {l : List (Int × Int)}
    (h : LeafState ORDER t l) {k w : Int} (hmem : (k, w) ∈ l) :
    ∃ t', t.remove k = (some w, t') ∧
      LeafState ORDER t' (eraseAtP (rank (l.map Prod.fst) k) l) ∧
      t'.len + 1 = t.len := by
  obtain ⟨j, hj, hget⟩ := List.getElem_of_mem hmem
  have hjk : (l.map Prod.fst).getD j 0 = k := by
    rw [getD_map_fst hj, List.getD_eq_getElem l (0,0) hj, hget]
  have hrk : rank (l.map Prod.fst) k = j :=
    rank_eq_of_getD h.sorted (by simpa using hj) hjk
  have hkeys : k ∈ l.map Prod.fst := List.mem_map_of_mem Prod.fst hmem
  have hjsome : l[j]? = some (k, w) := by
    rw [List.getElem?_eq_getElem hj, hget]
  have hsearch := search_leaf h k
  rw [hrk] at hsearch
  have hnp := nodes_pos h
  refine ⟨{ t.setNode 0 { t.getNode 0 with
      keys := eraseAt j (t.getNode 0).keys
      values := eraseAt j (t.getNode 0).values } with
        len := t.len - 1 }, ?_, ?_, ?_⟩
  · simp only [BTree.remove, h.root_eq, BTree.remove_recursive, hsearch, h.leaf_eq,
      if_true]
    simp [hkeys, h.values_eq, hjsome, BTree.setNode]
  · constructor
    · exact h.order_pos
    · simp [BTree.setNode, h.root_eq]
    · simp [BTree.setNode, h.len_eq, eraseAtP_length (hrk ▸ (hrk.symm ▸ hj)), hrk]
    · simp [BTree.setNode, h.nodes_len]
    · simp [BTree.setNode, h.free_eq]
    · simp [BTree.setNode, h.next_eq]
    · rw [getNode_setLen, getNode_setNode hnp, map_fst_eraseAtP]
      simp only [h.keys_eq, hrk]
    · rw [getNode_setLen, getNode_setNode hnp, map_snd_eraseAtP]
      simp only [h.values_eq, hrk]
    · rw [getNode_setLen, getNode_setNode hnp]
      exact h.leaf_eq
    · rw [getNode_setLen, getNode_setNode hnp]
      exact h.next_leaf_eq
    · rw [map_fst_eraseAtP]
      exact sorted_eraseAt h.sorted _
  · simp only [BTree.setNode]
    have : 1 ≤ t.len := by
      rw [h.len_eq]
      omega
    omega

end Sakurai

namespace Sakurai

/-! ## Iteration over a leaf state -/

theorem iterAux_leaf {ORDER : Nat} {t : BTree} {l : List (Int × Int)}
    (h : LeafState ORDER t l) :
    ∀ fuel pos, l.length - pos < fuel →
      BTree.iterAux t fuel 0 pos = l.drop pos := by
  intro fuel
  induction fuel with
  | zero => intro pos hp; omega
  | succ fuel ih =>
    intro pos hp
    have hkc : (t.getNode 0).key_count = l.length := by
      simp [Node.key_count, h.keys_eq]
    by_cases hend : l.length ≤ pos
    · have hnext : BTree.iterNext t 0 pos = none := by
        simp [BTree.iterNext, hkc, hend, h.next_leaf_eq]
      simp [BTree.iterAux, hnext, List.drop_eq_nil_of_le hend]
    · push_neg at hend
      have hpair : BTree.iterNext t 0 pos
          = some (((l.getD pos (0,0)).1, (l.getD pos (0,0)).2), 0, pos + 1) := by
        simp only [BTree.iterNext, hkc]
        rw [if_neg (by omega)]
        rw [h.keys_eq, h.values_eq, getD_map_fst hend, getD_map_snd hend]
      rw [BTree.iterAux, hpair]
      dsimp only
      rw [ih (pos + 1) (by omega)]
      rw [List.drop_eq_getElem_cons hend]
      rw [List.getD_eq_getElem l (0,0) hend]

theorem iterList_leaf {ORDER : Nat} {t : BTree} {l : List (Int × Int)}
    (h : LeafState ORDER t l) : t.iterList = l := by
  have hleft : t.find_leftmost_leaf = some 0 := by
    simp [BTree.find_leftmost_leaf, h.root_eq, BTree.find_leftmost_leaf_aux,
      h.leaf_eq]
  have := iterAux_leaf h (t.len + 1) 0 (by rw [h.len_eq]; omega)
  simp [BTree.iterList, hleft, this]

theorem iterList_empty {ORDER : Nat} {t : BTree} (h : EmptyState ORDER t) :
    t.iterList = [] := by
  simp [BTree.iterList, BTree.find_leftmost_leaf, h.root_eq]

/-! ## Clear -/

theorem clear_empty {ORDER : Nat} {t : BTree} (h : EmptyState ORDER t) :
    BTree.clear ORDER t = t := by
  simp [BTree.clear, h.root_eq]

theorem clear_leaf {ORDER : Nat} {t : BTree} {l : List (Int × Int)}
    (h : LeafState ORDER t l) :
    EmptyState ORDER (BTree.clear ORDER t) := by
  have hnp := nodes_pos h
  have hfuel : t.nodes.length + 1 = (t.nodes.length) + 1 := rfl
  have hrec : BTree.clear_recursive (t.nodes.length + 1) t 0
      = t.deallocate_node 0 := by
    rw [BTree.clear_recursive]
    simp [h.leaf_eq]
  have hclear : BTree.clear ORDER t
      = { t.deallocate_node 0 with
            root := none
            len := 0
            free_list := List.replicate ORDER true
            next_free := 0 } := by
    simp [BTree.clear, h.root_eq, hrec]
  constructor
  · rw [hclear]
  · rw [hclear]
  · rw [hclear]
    simp [BTree.deallocate_node, h.nodes_len]
  · rw [hclear]
  · rw [hclear]

end Sakurai

namespace Sakurai

/-! ## Reachability: every reachable state is empty or a single leaf -/

theorem insert_empty_zero {t : BTree} (h : EmptyState 0 t) (k v : Int) :
    BTree.insert 0 t k v = .panic := by
  have hfl : t.free_list = [] := by
    rw [h.free_eq]; rfl
  have hloop : BTree.allocLoop t.free_list t.next_free t.next_free (List.range 64)
      = .panic := by
    rw [show (64 : Nat) = 63 + 1 from rfl, List.range_succ_eq_map, BTree.allocLoop]
    simp [hfl, h.next_eq]
  simp [BTree.insert, h.root_eq, BTree.allocate_node, hloop]

theorem insert_panic_max {ORDER : Nat} {t : BTree} {l : List (Int × Int)}
    (h : LeafState ORDER t l) {k : Int} (hnm : k ∉ l.map Prod.fst)
    (hlt : l.length < ORDER) (hmax : MAX_ORDER ≤ l.length) (v : Int) :
    BTree.insert ORDER t k v = .panic := by
  have hsearch := search_leaf h k
  have hkc : (t.getNode 0).key_count = l.length := by
    simp [Node.key_count, h.keys_eq]
  simp only [BTree.insert, h.root_eq, BTree.insert_recursive, hsearch, h.leaf_eq,
    if_true]
  simp [hnm, hkc, Nat.not_le.mpr hlt, hmax]

inductive Reachable (ORDER : Nat) : BTree → Prop where
  | new : Reachable ORDER (BTree.new ORDER)
  | insert_ok {t : BTree} {k v : Int} {r : Option Int} {t' : BTree} :
      Reachable ORDER t → BTree.insert ORDER t k v = .ok r t' → Reachable ORDER t'
  | insert_err {t : BTree} {k v : Int} {e : BTreeError} {t' : BTree} :
      Reachable ORDER t → BTree.insert ORDER t k v = .err e t' → Reachable ORDER t'
  | remove_step {t : BTree} (k : Int) :
      Reachable ORDER t → Reachable ORDER (t.remove k).2
  | clear_step {t : BTree} :
      Reachable ORDER t → Reachable ORDER (BTree.clear ORDER t)

theorem reachable_shape {ORDER : Nat} {t : BTree} (h : Reachable ORDER t) :
    EmptyState ORDER t ∨ ∃ l, LeafState ORDER t l := by
  induction h with
  | new => exact Or.inl (emptyState_new ORDER)
  | insert_ok hr hins ih =>
    rename_i t0 k v r t'
    rcases ih with he | ⟨l, hl⟩
    · by_cases hpos : 0 < ORDER
      · obtain ⟨t'', heq, hleaf⟩ := insert_empty he hpos k v
        rw [heq] at hins
        injection hins with h1 h2
        exact Or.inr ⟨[(k, v)], h2 ▸ hleaf⟩
      · have hz : ORDER = 0 := by omega
        subst hz
        rw [insert_empty_zero he k v] at hins
        cases hins
    · by_cases hmem : k ∈ l.map Prod.fst
      · obtain ⟨p, hp, hpk⟩ := List.mem_map.mp hmem
        obtain ⟨a, b⟩ := p
        simp only at hpk
        subst hpk
        obtain ⟨t'', heq, hleaf, _, _⟩ := insert_present hl hp v
        rw [heq] at hins
        injection hins with h1 h2
        exact Or.inr ⟨_, h2 ▸ hleaf⟩
      · by_cases hfull : ORDER ≤ l.length
        · rw [insert_full hl hmem hfull v] at hins
          cases hins
        · push_neg at hfull
          by_cases hmax : MAX_ORDER ≤ l.length
          · rw [insert_panic_max hl hmem hfull hmax v] at hins
            cases hins
          · push_neg at hmax
            obtain ⟨t'', heq, hleaf⟩ := insert_new hl hmem hfull hmax v
            rw [heq] at hins
            injection hins with h1 h2
            exact Or.inr ⟨_, h2 ▸ hleaf⟩
  | insert_err hr hins ih =>
    rename_i t0 k v e t'
    rcases ih with he | ⟨l, hl⟩
    · by_cases hpos : 0 < ORDER
      · obtain ⟨t'', heq, _⟩ := insert_empty he hpos k v
        rw [heq] at hins
        cases hins
      · have hz : ORDER = 0 := by omega
        subst hz
        rw [insert_empty_zero he k v] at hins
        cases hins
    · by_cases hmem : k ∈ l.map Prod.fst
      · obtain ⟨p, hp, hpk⟩ := List.mem_map.mp hmem
        obtain ⟨a, b⟩ := p
        simp only at hpk
        subst hpk
        obtain ⟨t'', heq, _, _, _⟩ := insert_present hl hp v
        rw [heq] at hins
        cases hins
      · by_cases hfull : ORDER ≤ l.length
        · rw [insert_full hl hmem hfull v] at hins
          injection hins with h1 h2
          exact Or.inr ⟨l, h2 ▸ hl⟩
        · push_neg at hfull
          by_cases hmax : MAX_ORDER ≤ l.length
          · rw [insert_panic_max hl hmem hfull hmax v] at hins
            cases hins
          · push_neg at hmax
            obtain ⟨t'', heq, _⟩ := insert_new hl hmem hfull hmax v
            rw [heq] at hins
            cases hins
  | remove_step k hr ih =>
    rcases ih with he | ⟨l, hl⟩
    · rw [remove_empty he k]
      exact Or.inl he
    · by_cases hmem : k ∈ l.map Prod.fst
      · obtain ⟨p, hp, hpk⟩ := List.mem_map.mp hmem
        obtain ⟨a, b⟩ := p
        simp only at hpk
        subst hpk
        obtain ⟨t'', heq, hleaf, _⟩ := remove_present hl hp
        rw [heq]
        exact Or.inr ⟨_, hleaf⟩
      · rw [remove_absent hl hmem]
        exact Or.inr ⟨l, hl⟩
  | clear_step hr ih =>
    rcases ih with he | ⟨l, hl⟩
    · rw [clear_empty he]
      exact Or.inl he
    · exact Or.inl (clear_leaf hl)

end Sakurai

namespace Sakurai

/-! ## Sequences of insertions -/

/-- Runs `insert` for each pair in turn, collecting the result of every
call and the final state; a panic stops the run. -/
def insertSeq (ORDER : Nat) (t : BTree) :
    List (Int × Int) → List (Res (Option Int)) × BTree
  | [] => ([], t)
  | (k, v) :: rest =>
    match BTree.insert ORDER t k v with
    | .panic => ([.panic], t)
    | .err e t' =>
      let p := insertSeq ORDER t' rest
      (.err e t' :: p.1, p.2)
    | .ok r t' =>
      let p := insertSeq ORDER t' rest
      (.ok r t' :: p.1, p.2)

theorem insertSeq_leaf {ORDER : Nat} :
    ∀ (pairs : List (Int × Int)) {t : BTree} {l : List (Int × Int)},
      LeafState ORDER t l →
      (pairs.map Prod.fst).Nodup →
      (∀ k, k ∈ pairs.map Prod.fst → k ∉ l.map Prod.fst) →
      l.length + pairs.length ≤ ORDER →
      ORDER ≤ MAX_ORDER →
      ∃ l', LeafState ORDER (insertSeq ORDER t pairs).2 l' ∧
        l'.Perm (l ++ pairs) ∧
        ∀ r ∈ (insertSeq ORDER t pairs).1, ∃ t', r = Res.ok none t' := by
  intro pairs
  induction pairs with
  | nil =>
    intro t l hl _ _ _ _
    exact ⟨l, hl, by simp, by simp [insertSeq]⟩
  | cons p rest ih =>
    intro t l hl hnd hdisj hlen hmax
    obtain ⟨k, v⟩ := p
    have hknotl : k ∉ l.map Prod.fst := hdisj k (by simp)
    have hlt : l.length < ORDER := by
      simp only [List.length_cons] at hlen
      omega
    obtain ⟨t1, heq, hleaf1⟩ := insert_new hl hknotl hlt (by omega) v
    have hstep : insertSeq ORDER t ((k, v) :: rest)
        = ((Res.ok none t1) :: (insertSeq ORDER t1 rest).1,
           (insertSeq ORDER t1 rest).2) := by
      simp [insertSeq, heq]
    set l1 := insertAtP (rank (l.map Prod.fst) k) (k, v) l with hl1
    have hperm1 : l1.Perm ((k, v) :: l) := insertAtP_perm _ _ _
    have hkeysperm : (l1.map Prod.fst).Perm (k :: l.map Prod.fst) := by
      simpa using hperm1.map Prod.fst
    have hnd' : (rest.map Prod.fst).Nodup := by
      simp only [List.map_cons, List.nodup_cons] at hnd
      exact hnd.2
    have hdisj' : ∀ k', k' ∈ rest.map Prod.fst → k' ∉ l1.map Prod.fst := by
      intro k' hk' hmem
      have : k' ∈ k :: l.map Prod.fst := hkeysperm.mem_iff.mp hmem
      rcases List.mem_cons.mp this with rfl | hmem2
      · simp only [List.map_cons, List.nodup_cons] at hnd
        exact hnd.1 hk'
      · exact hdisj k' (by simp [hk']) hmem2
    have hlen1 : l1.length = l.length + 1 := hperm1.length_eq.trans (by simp)
    have hlen' : l1.length + rest.length ≤ ORDER := by
      simp only [List.length_cons] at hlen
      omega
    obtain ⟨l', hl', hperm', hres'⟩ := ih hleaf1 hnd' hdisj' hlen' hmax
    refine ⟨l', by rw [hstep]; exact hl', ?_, ?_⟩
    · have h1 : (l1 ++ rest).Perm (((k, v) :: l) ++ rest) := hperm1.append_right rest
      have h2 : (((k, v) :: l) ++ rest).Perm (l ++ (k, v) :: rest) :=
        List.perm_middle.symm
      exact hperm'.trans (h1.trans h2)
    · rw [hstep]
      intro r hr
      rcases List.mem_cons.mp hr with rfl | hr'
      · exact ⟨t1, rfl⟩
      · exact hres' r hr'

end Sakurai

namespace Sakurai

theorem insertSeq_fresh {ORDER : Nat} (pairs : List (Int × Int)) (hne : pairs ≠ [])
    (hnd : (pairs.map Prod.fst).Nodup)
    (hlen : pairs.length ≤ ORDER) (hmax : ORDER ≤ MAX_ORDER) :
    ∃ l', LeafState ORDER (insertSeq ORDER (BTree.new ORDER) pairs).2 l' ∧
      l'.Perm pairs ∧
      ∀ r ∈ (insertSeq ORDER (BTree.new ORDER) pairs).1, ∃ t', r = Res.ok none t' := by
  obtain ⟨p, rest, rfl⟩ := List.exists_cons_of_ne_nil hne
  obtain ⟨k, v⟩ := p
  have hpos : 0 < ORDER := by
    simp only [List.length_cons] at hlen
    omega
  obtain ⟨t1, heq, hleaf1⟩ := insert_empty (emptyState_new ORDER) hpos k v
  have hstep : insertSeq ORDER (BTree.new ORDER) ((k, v) :: rest)
      = ((Res.ok none t1) :: (insertSeq ORDER t1 rest).1,
         (insertSeq ORDER t1 rest).2) := by
    simp [insertSeq, heq]
  have hnd' : (rest.map Prod.fst).Nodup := by
    simp only [List.map_cons, List.nodup_cons] at hnd
    exact hnd.2
  have hdisj : ∀ k', k' ∈ rest.map Prod.fst → k' ∉ [(k, v)].map Prod.fst := by
    intro k' hk' hmem
    simp only [List.map_cons, List.map_nil, List.mem_singleton] at hmem
    subst hmem
    simp only [List.map_cons, List.nodup_cons] at hnd
    exact hnd.1 hk'
  have hlen' : ([(k, v)] : List (Int × Int)).length + rest.length ≤ ORDER := by
    simp only [List.length_cons] at hlen
    simp
    omega
  obtain ⟨l', hl', hperm, hres⟩ := insertSeq_leaf rest hleaf1 hnd' hdisj hlen' hmax
  refine ⟨l', by rw [hstep]; exact hl', ?_, ?_⟩
  · simpa using hperm
  · rw [hstep]
    intro r hr
    rcases List.mem_cons.mp hr with rfl | hr'
    · exact ⟨t1, rfl⟩
    · exact hres r hr'

/-- **C1** — Round-trip: inserting a sequence of at most `ORDER`
pairwise-distinct keys (each with a value) into a fresh index makes every
`insert` return `Ok(None)`, and afterwards `get` on each inserted key
returns exactly the value inserted for it.  (`ORDER ≤ MAX_ORDER`
captures that the configured capacity does not exceed the node's
fixed key-array size, as in every instantiation in the repository.) -/
theorem claim1_round_trip (ORDER : Nat) (pairs : List (Int × Int))
    (hnd : (pairs.map Prod.fst).Nodup)
    (hlen : pairs.length ≤ ORDER) (hmax : ORDER ≤ MAX_ORDER) :
    (∀ r ∈ (insertSeq ORDER (BTree.new ORDER) pairs).1, ∃ t', r = Res.ok none t') ∧
    (∀ p ∈ pairs,
      ((insertSeq ORDER (BTree.new ORDER) pairs).2).get p.1 = some p.2) := by
  by_cases hne : pairs = []
  · subst hne
    constructor
    · intro r hr
      simp [insertSeq] at hr
    · intro p hp
      simp at hp
  · obtain ⟨l', hl', hperm, hres⟩ := insertSeq_fresh pairs hne hnd hlen hmax
    refine ⟨hres, ?_⟩
    intro p hp
    obtain ⟨k, v⟩ := p
    have hmem : (k, v) ∈ l' := hperm.mem_iff.mpr hp
    exact get_present hl' hmem

theorem claim1_round_trip_witness :
    ((([(1, 10), (2, 20)] : List (Int × Int)).map Prod.fst).Nodup ∧
      ([(1, 10), (2, 20)] : List (Int × Int)).length ≤ 4 ∧ 4 ≤ MAX_ORDER) ∧
    ((∀ r ∈ (insertSeq 4 (BTree.new 4) [(1, 10), (2, 20)]).1,
        ∃ t', r = Res.ok none t') ∧
      (∀ p ∈ ([(1, 10), (2, 20)] : List (Int × Int)),
        ((insertSeq 4 (BTree.new 4) [(1, 10), (2, 20)]).2).get p.1 = some p.2)) :=
  ⟨⟨by decide, by decide, by decide⟩,
    claim1_round_trip 4 [(1, 10), (2, 20)] (by decide) (by decide) (by decide)⟩

end Sakurai

namespace Sakurai

/-- **C2** — Capacity boundary with atomic failure: with leaf capacity
`C = ORDER` (positive), inserting `ORDER` distinct keys into a fresh
index all succeed; a further insert of a fresh key fails with `Full`,
returns the state unchanged (no mutation), leaves `len() = ORDER`, and
every previously stored key still maps to its value. -/
theorem claim2_capacity_boundary (ORDER : Nat) (hpos : 0 < ORDER)
    (pairs : List (Int × Int)) (hnd : (pairs.map Prod.fst).Nodup)
    (hlen : pairs.length = ORDER) (hmax : ORDER ≤ MAX_ORDER)
    (knew vnew : Int) (hknew : knew ∉ pairs.map Prod.fst) :
    (∀ r ∈ (insertSeq ORDER (BTree.new ORDER) pairs).1, ∃ t', r = Res.ok none t') ∧
    BTree.insert ORDER (insertSeq ORDER (BTree.new ORDER) pairs).2 knew vnew
      = .err .Full (insertSeq ORDER (BTree.new ORDER) pairs).2 ∧
    ((insertSeq ORDER (BTree.new ORDER) pairs).2).len = ORDER ∧
    (∀ p ∈ pairs,
      ((insertSeq ORDER (BTree.new ORDER) pairs).2).get p.1 = some p.2) := by
  have hne : pairs ≠ [] := by
    intro hc
    subst hc
    simp at hlen
    omega
  obtain ⟨l', hl', hperm, hres⟩ := insertSeq_fresh pairs hne hnd (by omega) hmax
  have hlenl : l'.length = ORDER := by
    rw [hperm.length_eq, hlen]
  have hknew' : knew ∉ l'.map Prod.fst := by
    intro hc
    apply hknew
    exact (hperm.map Prod.fst).mem_iff.mp hc
  refine ⟨hres, ?_, ?_, ?_⟩
  · exact insert_full hl' hknew' (by omega) vnew
  · rw [hl'.len_eq, hlenl]
  · intro p hp
    obtain ⟨k, v⟩ := p
    exact get_present hl' (hperm.mem_iff.mpr hp)

theorem claim2_capacity_boundary_witness :
    (0 < 2 ∧ (([(5, 50), (7, 70)] : List (Int × Int)).map Prod.fst).Nodup ∧
      ([(5, 50), (7, 70)] : List (Int × Int)).length = 2 ∧ 2 ≤ MAX_ORDER ∧
      (6 : Int) ∉ ([(5, 50), (7, 70)] : List (Int × Int)).map Prod.fst) ∧
    ((∀ r ∈ (insertSeq 2 (BTree.new 2) [(5, 50), (7, 70)]).1,
        ∃ t', r = Res.ok none t') ∧
      BTree.insert 2 (insertSeq 2 (BTree.new 2) [(5, 50), (7, 70)]).2 6 66
        = .err .Full (insertSeq 2 (BTree.new 2) [(5, 50), (7, 70)]).2 ∧
      ((insertSeq 2 (BTree.new 2) [(5, 50), (7, 70)]).2).len = 2 ∧
      (∀ p ∈ ([(5, 50), (7, 70)] : List (Int × Int)),
        ((insertSeq 2 (BTree.new 2) [(5, 50), (7, 70)]).2).get p.1 = some p.2)) :=
  ⟨⟨by decide, by decide, by decide, by decide, by decide⟩,
    claim2_capacity_boundary 2 (by decide) [(5, 50), (7, 70)] (by decide) (by decide)
      (by decide) 6 66 (by decide)⟩

end Sakurai

namespace Sakurai

/-- **C3** — Update semantics: on any reachable index, inserting a key
that is already present returns `Ok(Some(old_value))` where `old_value`
is the value previously stored under the key, and leaves both `len()`
and the leaf's key count unchanged — with no capacity-side condition, so
this holds in particular when the leaf's key run is already at maximum
size (the overwrite branch precedes the `Full` check). -/
theorem claim3_update_semantics {ORDER : Nat} {t : BTree}
    (hr : Reachable ORDER t) {k w : Int} (hget : t.get k = some w) (v : Int) :
    ∃ t', BTree.insert ORDER t k v = .ok (some w) t' ∧
      t'.len = t.len ∧ (t'.getNode 0).key_count = (t.getNode 0).key_count := by
  rcases reachable_shape hr with he | ⟨l, hl⟩
  · rw [get_empty he k] at hget
    cases hget
  · have hmem : (k, w) ∈ l := (get_some_iff hl k w).mp hget
    obtain ⟨t', heq, _, hlen, hkc⟩ := insert_present hl hmem v
    exact ⟨t', heq, hlen, hkc⟩

theorem claim3_update_semantics_witness :
    (Reachable 2 (insertSeq 2 (BTree.new 2) [(5, 50), (7, 70)]).2 ∧
      (insertSeq 2 (BTree.new 2) [(5, 50), (7, 70)]).2.get 5 = some 50) ∧
    (∃ t', BTree.insert 2 (insertSeq 2 (BTree.new 2) [(5, 50), (7, 70)]).2 5 555
        = .ok (some 50) t' ∧
      t'.len = (insertSeq 2 (BTree.new 2) [(5, 50), (7, 70)]).2.len ∧
      (t'.getNode 0).key_count
        = ((insertSeq 2 (BTree.new 2) [(5, 50), (7, 70)]).2.getNode 0).key_count) := by
  have h1 : Reachable 2 (BTree.new 2) := Reachable.new
  have h2 := Reachable.insert_ok h1
    (show BTree.insert 2 (BTree.new 2) 5 50
      = .ok none ((insertSeq 2 (BTree.new 2) [(5, 50)]).2) from by decide)
  have hreach := Reachable.insert_ok h2
    (show BTree.insert 2 (insertSeq 2 (BTree.new 2) [(5, 50)]).2 7 70
      = .ok none ((insertSeq 2 (BTree.new 2) [(5, 50), (7, 70)]).2) from by decide)
  exact ⟨⟨hreach, by decide⟩, claim3_update_semantics hreach (by decide) 555⟩

end Sakurai

namespace Sakurai

theorem mem_eraseAtP {l : List (Int × Int)} {r : Nat} (hr : r < l.length)
    {x : Int × Int} (hne : x ≠ l.getD r ((0 : Int), (0 : Int))) :
    x ∈ eraseAtP r l ↔ x ∈ l := by
  have hdecomp : l.take r ++ l.getD r ((0 : Int), (0 : Int)) :: l.drop (r + 1) = l := by
    rw [List.getD_eq_getElem l _ hr, ← List.drop_eq_getElem_cons hr,
      List.take_append_drop]
  constructor
  · intro hx
    rcases List.mem_append.mp hx with hx1 | hx2
    · exact List.mem_of_mem_take hx1
    · exact List.mem_of_mem_drop hx2
  · intro hx
    rw [← hdecomp] at hx
    rcases List.mem_append.mp hx with hx1 | hx2
    · exact List.mem_append.mpr (Or.inl hx1)
    · rcases List.mem_cons.mp hx2 with rfl | hx3
      · exact absurd rfl hne
      · exact List.mem_append.mpr (Or.inr hx3)

/-- **C4** — Removal semantics: on any reachable index, removing a
present key returns `Some` of its stored value and decrements `len()` by
exactly 1, while every other stored pair is preserved (the leaf's key
run stays a contiguous sorted run); removing an absent key returns
`None` and leaves the state — in particular `len()` — unchanged. -/
theorem claim4_removal {ORDER : Nat} {t : BTree} (hr : Reachable ORDER t)
    (k : Int) :
    (∀ w, t.get k = some w →
      ∃ t', t.remove k = (some w, t') ∧ t'.len + 1 = t.len ∧
        ∀ k2 w2, k2 ≠ k → (t'.get k2 = some w2 ↔ t.get k2 = some w2)) ∧
    (t.get k = none → t.remove k = (none, t)) := by
  rcases reachable_shape hr with he | ⟨l, hl⟩
  · constructor
    · intro w hw
      rw [get_empty he k] at hw
      cases hw
    · intro _
      exact remove_empty he k
  · constructor
    · intro w hw
      have hmem : (k, w) ∈ l := (get_some_iff hl k w).mp hw
      obtain ⟨j, hj, hget⟩ := List.getElem_of_mem hmem
      have hjk : (l.map Prod.fst).getD j 0 = k := by
        rw [getD_map_fst hj, List.getD_eq_getElem l (0,0) hj, hget]
      have hrk : rank (l.map Prod.fst) k = j :=
        rank_eq_of_getD hl.sorted (by simpa using hj) hjk
      have hgd : l.getD j ((0 : Int), (0 : Int)) = (k, w) := by
        rw [List.getD_eq_getElem l _ hj, hget]
      obtain ⟨t', heq, hleaf, hlen⟩ := remove_present hl hmem
      refine ⟨t', heq, by omega, ?_⟩
      intro k2 w2 hne
      have hx : ((k2, w2) : Int × Int) ≠ l.getD j ((0 : Int), (0 : Int)) := by
        rw [hgd]
        intro hc
        injection hc with hc1 hc2
        exact hne hc1
      rw [get_some_iff hl k2 w2, get_some_iff hleaf k2 w2, hrk]
      exact mem_eraseAtP hj hx
    · intro hw
      have hnm : k ∉ l.map Prod.fst := by
        intro hc
        obtain ⟨p, hp, hpk⟩ := List.mem_map.mp hc
        obtain ⟨a, b⟩ := p
        simp only at hpk
        subst hpk
        rw [get_present hl hp] at hw
        cases hw
      exact remove_absent hl hnm

theorem claim4_removal_witness :
    Reachable 4 (insertSeq 4 (BTree.new 4) [(5, 50), (7, 70)]).2 ∧
    ((∀ w, (insertSeq 4 (BTree.new 4) [(5, 50), (7, 70)]).2.get 5 = some w →
      ∃ t', (insertSeq 4 (BTree.new 4) [(5, 50), (7, 70)]).2.remove 5 = (some w, t') ∧
        t'.len + 1 = (insertSeq 4 (BTree.new 4) [(5, 50), (7, 70)]).2.len ∧
        ∀ k2 w2, k2 ≠ 5 →
          (t'.get k2 = some w2 ↔
            (insertSeq 4 (BTree.new 4) [(5, 50), (7, 70)]).2.get k2 = some w2)) ∧
    ((insertSeq 4 (BTree.new 4) [(5, 50), (7, 70)]).2.get 5 = none →
      (insertSeq 4 (BTree.new 4) [(5, 50), (7, 70)]).2.remove 5
        = (none, (insertSeq 4 (BTree.new 4) [(5, 50), (7, 70)]).2))) := by
  have h1 : Reachable 4 (BTree.new 4) := Reachable.new
  have h2 := Reachable.insert_ok h1
    (show BTree.insert 4 (BTree.new 4) 5 50
      = .ok none ((insertSeq 4 (BTree.new 4) [(5, 50)]).2) from by decide)
  have hreach := Reachable.insert_ok h2
    (show BTree.insert 4 (insertSeq 4 (BTree.new 4) [(5, 50)]).2 7 70
      = .ok none ((insertSeq 4 (BTree.new 4) [(5, 50), (7, 70)]).2) from by decide)
  exact ⟨hreach, claim4_removal hreach 5⟩

end Sakurai

namespace Sakurai

/-- **C5** — Ordering: for any within-capacity sequence of pairs with
distinct keys inserted into a fresh index, `iter()` yields exactly the
inserted pairs, in strictly ascending key order — so the yielded key
sequence is a permutation of the inserted key set that is sorted; and in
the concrete case of inserting keys `[5,2,8,1,9,3,7,4,6]` with values
equal to keys, the keys collected from `iter()`, independently sorted,
equal `[1,…,9]`. -/
theorem claim5_ordering (ORDER : Nat) (pairs : List (Int × Int))
    (hnd : (pairs.map Prod.fst).Nodup)
    (hlen : pairs.length ≤ ORDER) (hmax : ORDER ≤ MAX_ORDER) :
    (List.Sorted (· < ·)
        (((insertSeq ORDER (BTree.new ORDER) pairs).2.iterList).map Prod.fst) ∧
      ((insertSeq ORDER (BTree.new ORDER) pairs).2.iterList).Perm pairs ∧
      (((insertSeq ORDER (BTree.new ORDER) pairs).2.iterList).map Prod.fst).Perm
        (pairs.map Prod.fst)) ∧
    ((insertSeq 16 (BTree.new 16)
        [(5,5),(2,2),(8,8),(1,1),(9,9),(3,3),(7,7),(4,4),(6,6)]).2.iterList.map
          Prod.fst).insertionSort (· ≤ ·)
      = [1, 2, 3, 4, 5, 6, 7, 8, 9] := by
  refine ⟨?_, by decide⟩
  by_cases hne : pairs = []
  · subst hne
    have : (insertSeq ORDER (BTree.new ORDER) ([] : List (Int × Int))).2
        = BTree.new ORDER := by
      simp [insertSeq]
    rw [this, iterList_empty (emptyState_new ORDER)]
    simp
  · obtain ⟨l', hl', hperm, _⟩ := insertSeq_fresh pairs hne hnd hlen hmax
    rw [iterList_leaf hl']
    exact ⟨hl'.sorted, hperm, hperm.map Prod.fst⟩

theorem claim5_ordering_witness :
    ((([(3, 30), (1, 10), (2, 20)] : List (Int × Int)).map Prod.fst).Nodup ∧
      ([(3, 30), (1, 10), (2, 20)] : List (Int × Int)).length ≤ 4 ∧
      4 ≤ MAX_ORDER) ∧
    ((List.Sorted (· < ·)
        (((insertSeq 4 (BTree.new 4) [(3, 30), (1, 10), (2, 20)]).2.iterList).map
          Prod.fst) ∧
      ((insertSeq 4 (BTree.new 4) [(3, 30), (1, 10), (2, 20)]).2.iterList).Perm
        [(3, 30), (1, 10), (2, 20)] ∧
      (((insertSeq 4 (BTree.new 4) [(3, 30), (1, 10), (2, 20)]).2.iterList).map
        Prod.fst).Perm
          (([(3, 30), (1, 10), (2, 20)] : List (Int × Int)).map Prod.fst)) ∧
    ((insertSeq 16 (BTree.new 16)
        [(5,5),(2,2),(8,8),(1,1),(9,9),(3,3),(7,7),(4,4),(6,6)]).2.iterList.map
          Prod.fst).insertionSort (· ≤ ·)
      = [1, 2, 3, 4, 5, 6, 7, 8, 9]) :=
  ⟨⟨by decide, by decide, by decide⟩,
    claim5_ordering 4 [(3, 30), (1, 10), (2, 20)] (by decide) (by decide) (by decide)⟩

end Sakurai

namespace Sakurai

/-- The even-key/value pair list `[(0, f 0), (2, f 2), …, (2k, f (2k))]`. -/
def evenPairs (kmax : Nat) (f : Int → Int) : List (Int × Int) :=
  (List.range (kmax + 1)).map (fun j : Nat => (2 * (j : Int), f (2 * (j : Int))))

theorem evenPairs_length (kmax : Nat) (f : Int → Int) :
    (evenPairs kmax f).length = kmax + 1 := by
  rw [evenPairs, List.length_map, List.length_range]

theorem evenPairs_keys_nodup (kmax : Nat) (f : Int → Int) :
    ((evenPairs kmax f).map Prod.fst).Nodup := by
  rw [evenPairs, List.map_map]
  apply List.Nodup.map
  · intro a b hab
    simp only [Function.comp] at hab
    omega
  · exact List.nodup_range (kmax + 1)

/-- **C6** — Search contract: on every node whose live key run is
strictly ascending, `search_node` returns `found = true` together with
the exact position of the key when it is present, and otherwise
`found = false` together with the insertion point (the index of the
first strictly greater key, or `key_count` when the searched key exceeds
them all).  Consequently, after inserting only the even keys
`0, 2, …, 2·kmax` into a fresh index, `get` returns the stored value for
every even key and `none` for every odd key. -/
theorem claim6_search_contract :
    (∀ (node : Node) (key : Int), List.Sorted (· < ·) node.keys →
      ((search_node node key).1 = decide (key ∈ node.keys) ∧
        (search_node node key).2 = rank node.keys key ∧
        (key ∈ node.keys →
          node.keys.getD (search_node node key).2 0 = key) ∧
        (key ∉ node.keys →
          (search_node node key).2 ≤ node.key_count ∧
          (∀ i, i < (search_node node key).2 → node.keys.getD i 0 < key) ∧
          (∀ i, (search_node node key).2 ≤ i → i < node.key_count →
            key < node.keys.getD i 0)))) ∧
    (∀ (ORDER kmax : Nat) (f : Int → Int), kmax + 1 ≤ ORDER → ORDER ≤ MAX_ORDER →
      (∀ j : Nat, j ≤ kmax →
        (insertSeq ORDER (BTree.new ORDER) (evenPairs kmax f)).2.get (2 * j)
          = some (f (2 * j))) ∧
      (∀ j : Nat, j ≤ kmax →
        (insertSeq ORDER (BTree.new ORDER) (evenPairs kmax f)).2.get (2 * j + 1)
          = none)) := by
  constructor
  · intro node key hs
    have hcorrect := search_node_correct node key hs
    rw [hcorrect]
    refine ⟨rfl, rfl, ?_, ?_⟩
    · intro hmem
      exact (rank_of_mem hs hmem).2
    · intro hnm
      refine ⟨?_, ?_, ?_⟩
      · exact rank_le_length node.keys key
      · intro i hi
        have hilen : i < node.keys.length := by
          have := rank_le_length node.keys key
          omega
        exact (lt_rank_iff hs key i hilen).mp hi
      · intro i hge hilen
        have hilen' : i < node.keys.length := hilen
        have h1 : ¬ node.keys.getD i 0 < key := by
          intro hc
          have := (lt_rank_iff hs key i hilen').mpr hc
          omega
        have h2 : node.keys.getD i 0 ≠ key := by
          intro hc
          apply hnm
          rw [← hc, List.getD_eq_getElem node.keys 0 hilen']
          exact List.getElem_mem hilen'
        omega
  · intro ORDER kmax f hlen hmax
    have hlen0 := evenPairs_length kmax f
    have hne : evenPairs kmax f ≠ [] := by
      intro hc
      rw [hc] at hlen0
      simp at hlen0
    have hnd := evenPairs_keys_nodup kmax f
    have hlen' : (evenPairs kmax f).length ≤ ORDER := by
      omega
    obtain ⟨l', hl', hperm, _⟩ := insertSeq_fresh (evenPairs kmax f) hne hnd hlen' hmax
    constructor
    · intro j hj
      have hmem : ((2 * j : Int), f (2 * j)) ∈ evenPairs kmax f := by
        simp only [evenPairs, List.mem_map]
        exact ⟨j, by simp [List.mem_range]; omega, rfl⟩
      exact get_present hl' (hperm.mem_iff.mpr hmem)
    · intro j hj
      have hnm : (2 * (j : Int) + 1) ∉ l'.map Prod.fst := by
        intro hc
        have : (2 * (j : Int) + 1) ∈ (evenPairs kmax f).map Prod.fst :=
          ((hperm.map Prod.fst).mem_iff).mp hc
        simp only [evenPairs, List.map_map, List.mem_map, Function.comp] at this
        obtain ⟨m, _, hm⟩ := this
        omega
      exact get_absent hl' hnm

theorem claim6_search_contract_witness :
    ((3 : Nat) + 1 ≤ 8 ∧ (8 : Nat) ≤ MAX_ORDER) ∧
    ((∀ j : Nat, j ≤ 3 →
        (insertSeq 8 (BTree.new 8) (evenPairs 3 (fun x => x + 100))).2.get (2 * j)
          = some ((fun x : Int => x + 100) (2 * j))) ∧
      (∀ j : Nat, j ≤ 3 →
        (insertSeq 8 (BTree.new 8) (evenPairs 3 (fun x => x + 100))).2.get
          (2 * j + 1) = none)) :=
  ⟨⟨by decide, by decide⟩,
    (claim6_search_contract.2 8 3 (fun x => x + 100) (by decide) (by decide))⟩

end Sakurai

namespace Sakurai

/-- **C7** — The allocator's probe bound is the hard-coded constant 64,
not `ORDER`.  Evaluations at the failing inputs: (1) with `ORDER = 8`
and all 8 slots occupied, the probe loop reads `free_list[8]`, out of
range — a panic instead of `Full`; (2) with `ORDER = 128` and exactly
the first 64 slots occupied, allocation reports `Full` although slots
64…127 are free — those slots can never be handed out; (3) the masked
selection is inverted, so when the first probed slot is occupied and the
second is free, the loop returns the stale accumulator — the occupied
slot 0 — instead of the free slot 1. -/
theorem claim7_allocator_probe_bound :
    BTree.allocate_node { BTree.new 8 with free_list := List.replicate 8 false }
      = .panic ∧
    BTree.allocate_node { BTree.new 128 with
        free_list := List.replicate 64 false ++ List.replicate 64 true }
      = .err .Full { BTree.new 128 with
        free_list := List.replicate 64 false ++ List.replicate 64 true } ∧
    BTree.allocLoop [false, true, true] 0 0 (List.range 64)
      = .found 0 := by
  refine ⟨by decide, by decide, by decide⟩

/-- **C8 counterexample** — `new()` performs no construction-time
validity check: with the structurally invalid capacity `ORDER = 0`,
construction succeeds and returns an empty index, and the abort happens
only later, at the first `insert` (an out-of-range free-list probe). -/
theorem claim8_counterexample :
    BTree.new 0
      = { root := none, nodes := [], free_list := [], next_free := 0, len := 0 } ∧
    (BTree.new 0).root = none ∧ (BTree.new 0).len = 0 ∧
    (BTree.new 0).is_empty = true ∧
    BTree.insert 0 (BTree.new 0) 1 1 = .panic := by
  refine ⟨rfl, rfl, rfl, rfl, by decide⟩

/-- **C8 amended** — `new()` never aborts: for every configured capacity
`ORDER` (zero included) it returns an empty index with `root = None`,
`len() = 0` and `is_empty() = true`; a structurally invalid capacity is
not rejected at construction but aborts at run time instead (for
`ORDER = 0`, the first `insert` panics inside the free-slot probe). -/
theorem claim8_amended (ORDER : Nat) (k v : Int) :
    (BTree.new ORDER).root = none ∧ (BTree.new ORDER).len = 0 ∧
    (BTree.new ORDER).is_empty = true ∧ EmptyState ORDER (BTree.new ORDER) ∧
    BTree.insert 0 (BTree.new 0) k v = .panic := by
  refine ⟨rfl, rfl, rfl, emptyState_new ORDER, ?_⟩
  exact insert_empty_zero (emptyState_new 0) k v

/-- **C9 counterexample** — the comparison loop's control flow is data
dependent: on the same two-key run `[10, 20]`, searching 25 performs a
single comparison while searching 15 performs two, and the early-return
(match) branch is taken for 20 — three different branch traces driven
by the comparison outcomes. -/
theorem claim9_counterexample :
    searchLoopSteps [10, 20] 25 0 2 3 = [1] ∧
    searchLoopSteps [10, 20] 15 0 2 3 = [-1, 1] ∧
    searchLoopSteps [10, 20] 20 0 2 3 = [0] ∧
    (searchLoopSteps [10, 20] 25 0 2 3).length
      ≠ (searchLoopSteps [10, 20] 15 0 2 3).length := by
  refine ⟨by decide, by decide, by decide, by decide⟩

/-- **C9 amended** — the interval-narrowing step of the key-search loop
is branch-free: the arithmetic selection `selectBounds` coincides, for
every comparison outcome, with the conditional update it encodes.  The
loop is not, however, free of data-dependent control flow: it returns
early on an exact match, so the number of iterations (the comparison
trace) does depend on the searched key, as a concrete three-key run
shows. -/
theorem claim9_amended :
    (∀ (left right mid : Nat) (cmp : Int),
      selectBounds left right mid cmp
        = (if 0 < cmp then mid + 1 else left, if cmp < 0 then mid else right)) ∧
    (searchLoopSteps [10, 20, 30] 5 0 3 4).length
      ≠ (searchLoopSteps [10, 20, 30] 20 0 3 4).length := by
  constructor
  · intro left right mid cmp
    rcases lt_trichotomy cmp 0 with hlt | heq | hgt
    · have h2 : ¬ (cmp > 0) := by omega
      simp [selectBounds, hlt, h2]
    · subst heq
      simp [selectBounds]
    · have h1 : ¬ (cmp < 0) := by omega
      simp [selectBounds, h1, hgt]
  · decide

end Sakurai

namespace Sakurai

/-- The state a mutating call leaves behind (`panic` aborts the process,
so the prior state is returned for that case only to totalise). -/
def resState {α : Type} (r : Res α) (t : BTree) : BTree :=
  match r with
  | .panic => t
  | .err _ t' => t'
  | .ok _ t' => t'

/-- **C10** — Frame property: once the root leaf exists, no `insert` or
`remove` call allocates or deallocates an arena slot — the free-slot
markers, the cursor and the root are unchanged by those calls (`get` and
`contains_key` take the state immutably and return none of it); removing
the last remaining key still leaves the root set, its slot marked
occupied, and the leaf's key count 0; only `clear` releases the slot,
resetting the arena to all-free and the root to `None`. -/
theorem claim10_frame {ORDER : Nat} {t : BTree} (hr : Reachable ORDER t)
    (hroot : t.root.isSome) :
    (∀ k v,
      (resState (BTree.insert ORDER t k v) t).free_list = t.free_list ∧
      (resState (BTree.insert ORDER t k v) t).next_free = t.next_free ∧
      (resState (BTree.insert ORDER t k v) t).root = t.root) ∧
    (∀ k,
      (t.remove k).2.free_list = t.free_list ∧
      (t.remove k).2.next_free = t.next_free ∧
      (t.remove k).2.root = t.root) ∧
    (∀ k w, t.get k = some w → t.len = 1 →
      (t.remove k).2.root = some 0 ∧
      (t.remove k).2.free_list.getD 0 true = false ∧
      ((t.remove k).2.getNode 0).key_count = 0) ∧
    ((BTree.clear ORDER t).free_list = List.replicate ORDER true ∧
      (BTree.clear ORDER t).root = none ∧
      (BTree.clear ORDER t).next_free = 0) := by
  rcases reachable_shape hr with he | ⟨l, hl⟩
  · rw [he.root_eq] at hroot
    cases hroot
  · refine ⟨?_, ?_, ?_, ?_⟩
    · intro k v
      by_cases hmem : k ∈ l.map Prod.fst
      · obtain ⟨p, hp, hpk⟩ := List.mem_map.mp hmem
        obtain ⟨a, b⟩ := p
        simp only at hpk
        subst hpk
        obtain ⟨t', heq, hleaf, _, _⟩ := insert_present hl hp v
        rw [heq]
        simp only [resState]
        rw [hleaf.free_eq, hl.free_eq, hleaf.next_eq, hl.next_eq,
          hleaf.root_eq, hl.root_eq]
        exact ⟨rfl, rfl, rfl⟩
      · by_cases hfull : ORDER ≤ l.length
        · rw [insert_full hl hmem hfull v]
          exact ⟨rfl, rfl, rfl⟩
        · push_neg at hfull
          by_cases hmax : MAX_ORDER ≤ l.length
          · rw [insert_panic_max hl hmem hfull hmax v]
            exact ⟨rfl, rfl, rfl⟩
          · push_neg at hmax
            obtain ⟨t', heq, hleaf⟩ := insert_new hl hmem hfull hmax v
            rw [heq]
            simp only [resState]
            rw [hleaf.free_eq, hl.free_eq, hleaf.next_eq, hl.next_eq,
              hleaf.root_eq, hl.root_eq]
            exact ⟨rfl, rfl, rfl⟩
    · intro k
      by_cases hmem : k ∈ l.map Prod.fst
      · obtain ⟨p, hp, hpk⟩ := List.mem_map.mp hmem
        obtain ⟨a, b⟩ := p
        simp only at hpk
        subst hpk
        obtain ⟨t', heq, hleaf, _⟩ := remove_present hl hp
        rw [heq]
        rw [hleaf.free_eq, hl.free_eq, hleaf.next_eq, hl.next_eq,
          hleaf.root_eq, hl.root_eq]
        exact ⟨rfl, rfl, rfl⟩
      · rw [remove_absent hl hmem]
        exact ⟨rfl, rfl, rfl⟩
    · intro k w hget hlen1
      have hmem : (k, w) ∈ l := (get_some_iff hl k w).mp hget
      obtain ⟨t', heq, hleaf, _⟩ := remove_present hl hmem
      rw [heq]
      have hl1 : l.length = 1 := by
        have := hl.len_eq
        omega
      refine ⟨hleaf.root_eq, ?_, ?_⟩
      · rw [hleaf.free_eq]
        rw [getD_set_self (by simpa using hleaf.order_pos) false true]
      · have : (eraseAtP (rank (l.map Prod.fst) k) l).length = 0 := by
          have hr0 : rank (l.map Prod.fst) k < l.length := by
            have := (rank_of_mem hl.sorted
              (List.mem_map_of_mem Prod.fst hmem)).1
            simpa using this
          rw [eraseAtP_length hr0]
          omega
        simp only [Node.key_count, hleaf.keys_eq, List.length_map]
        exact this
    · have hempty := clear_leaf hl
      exact ⟨hempty.free_eq, hempty.root_eq, hempty.next_eq⟩

theorem claim10_frame_witness :
    (Reachable 4 (insertSeq 4 (BTree.new 4) [(9, 90)]).2 ∧
      ((insertSeq 4 (BTree.new 4) [(9, 90)]).2.root.isSome = true)) ∧
    ((∀ k v,
      (resState (BTree.insert 4 (insertSeq 4 (BTree.new 4) [(9, 90)]).2 k v)
        (insertSeq 4 (BTree.new 4) [(9, 90)]).2).free_list
        = (insertSeq 4 (BTree.new 4) [(9, 90)]).2.free_list ∧
      (resState (BTree.insert 4 (insertSeq 4 (BTree.new 4) [(9, 90)]).2 k v)
        (insertSeq 4 (BTree.new 4) [(9, 90)]).2).next_free
        = (insertSeq 4 (BTree.new 4) [(9, 90)]).2.next_free ∧
      (resState (BTree.insert 4 (insertSeq 4 (BTree.new 4) [(9, 90)]).2 k v)
        (insertSeq 4 (BTree.new 4) [(9, 90)]).2).root
        = (insertSeq 4 (BTree.new 4) [(9, 90)]).2.root) ∧
    (∀ k,
      ((insertSeq 4 (BTree.new 4) [(9, 90)]).2.remove k).2.free_list
        = (insertSeq 4 (BTree.new 4) [(9, 90)]).2.free_list ∧
      ((insertSeq 4 (BTree.new 4) [(9, 90)]).2.remove k).2.next_free
        = (insertSeq 4 (BTree.new 4) [(9, 90)]).2.next_free ∧
      ((insertSeq 4 (BTree.new 4) [(9, 90)]).2.remove k).2.root
        = (insertSeq 4 (BTree.new 4) [(9, 90)]).2.root) ∧
    (∀ k w, (insertSeq 4 (BTree.new 4) [(9, 90)]).2.get k = some w →
      (insertSeq 4 (BTree.new 4) [(9, 90)]).2.len = 1 →
      ((insertSeq 4 (BTree.new 4) [(9, 90)]).2.remove k).2.root = some 0 ∧
      ((insertSeq 4 (BTree.new 4) [(9, 90)]).2.remove k).2.free_list.getD 0 true
        = false ∧
      (((insertSeq 4 (BTree.new 4) [(9, 90)]).2.remove k).2.getNode 0).key_count
        = 0) ∧
    ((BTree.clear 4 (insertSeq 4 (BTree.new 4) [(9, 90)]).2).free_list
        = List.replicate 4 true ∧
      (BTree.clear 4 (insertSeq 4 (BTree.new 4) [(9, 90)]).2).root = none ∧
      (BTree.clear 4 (insertSeq 4 (BTree.new 4) [(9, 90)]).2).next_free = 0)) := by
  have h1 : Reachable 4 (BTree.new 4) := Reachable.new
  have hreach := Reachable.insert_ok h1
    (show BTree.insert 4 (BTree.new 4) 9 90
      = .ok none ((insertSeq 4 (BTree.new 4) [(9, 90)]).2) from by decide)
  exact ⟨⟨hreach, by decide⟩, claim10_frame hreach (by decide)⟩

end Sakurai
